import Mathlib

/-!
Verification of the casadidiff core against its specification.

The development shallowly embeds three parts of the source:
  * the atomic-operation table of `src/casadi/core/Nodes/atomic.h`
    (forward rules and partial-derivative rules, embedded as symbolic
    expressions over the operands `x`, `y` and the result `f`, with a
    real-valued denotation),
  * the construction-time simplifier of `PlusNode::eval` in
    `src/casadi/core/Nodes/sx_nodes.cc` (expression nodes carry an
    allocation identifier so that reference identity of node objects is
    expressible),
  * the code generator of `src/casadi/core/function/code_generator.cpp`
    (constant pools, the numeric-literal formatter, the work-slot namer
    and the output-file naming of `generate`).
-/

namespace CasadiDiff

/-! ## Atomic operation table (`src/casadi/core/Nodes/atomic.h`)

The `fcn` and `der` rules of the table build `Expression` values over the
operands and the result.  `AExpr` is the syntax of those expressions:
`X` and `Y` refer to the operands, `F` to the already-computed result. -/

inductive AExpr where
  | X : AExpr
  | Y : AExpr
  | F : AExpr
  | lit : Int → AExpr
  | add : AExpr → AExpr → AExpr
  | sub : AExpr → AExpr → AExpr
  | mul : AExpr → AExpr → AExpr
  | div : AExpr → AExpr → AExpr
  | neg : AExpr → AExpr
  | powE : AExpr → AExpr → AExpr
  | logE : AExpr → AExpr
  | sinhE : AExpr → AExpr
  | coshE : AExpr → AExpr
  | fminE : AExpr → AExpr → AExpr
  | fmaxE : AExpr → AExpr → AExpr
  | leE : AExpr → AExpr → AExpr
  | geE : AExpr → AExpr → AExpr
  | lnot : AExpr → AExpr
deriving DecidableEq

/-- Real-valued denotation of an atomic-table expression at operand values
`x`, `y` and result value `f`.  Comparisons and logical negation follow the
C convention of the source: they produce `1` for true and `0` for false,
and `!d` is `1` exactly when `d` is `0`. -/
noncomputable def evalA (x y f : ℝ) : AExpr → ℝ
  | .X => x
  | .Y => y
  | .F => f
  | .lit n => (n : ℝ)
  | .add a b => evalA x y f a + evalA x y f b
  | .sub a b => evalA x y f a - evalA x y f b
  | .mul a b => evalA x y f a * evalA x y f b
  | .div a b => evalA x y f a / evalA x y f b
  | .neg a => -(evalA x y f a)
  | .powE a b => Real.rpow (evalA x y f a) (evalA x y f b)
  | .logE a => Real.log (evalA x y f a)
  | .sinhE a => Real.sinh (evalA x y f a)
  | .coshE a => Real.cosh (evalA x y f a)
  | .fminE a b => min (evalA x y f a) (evalA x y f b)
  | .fmaxE a b => max (evalA x y f a) (evalA x y f b)
  | .leE a b => if evalA x y f a ≤ evalA x y f b then 1 else 0
  | .geE a b => if evalA x y f b ≤ evalA x y f a then 1 else 0
  | .lnot a => if evalA x y f a = 0 then 1 else 0

/-- One entry of the atomic operation table: the forward rule and the list
of partial-derivative rules, one per operand. -/
structure Atomic where
  fcn : AExpr
  der : List AExpr

/-- Hyperbolic sine entry: `fcn(x) = sinh(x)`, `der` is `d[0] = cosh(x)`. -/
def sinhAtomic : Atomic :=
  { fcn := .sinhE .X, der := [.coshE .X] }

/-- Hyperbolic cosine entry as written in the source:
`fcn(x) = cosh(x)`, `der` is `d[0] = -sinh(x)`. -/
def coshAtomic : Atomic :=
  { fcn := .coshE .X, der := [.neg (.sinhE .X)] }

/-- Power entry (non-constant exponent): `fcn = pow(x, y)`,
`der` is `d[0] = y*pow(x, y-1)`, `d[1] = log(x)*f`. -/
def powAtomic : Atomic :=
  { fcn := .powE .X .Y
    der := [.mul .Y (.powE .X (.sub .Y (.lit 1))), .mul (.logE .X) .F] }

/-- Power entry with constant exponent: same `fcn` and `d[0]`, `d[1] = 0`. -/
def powConstAtomic : Atomic :=
  { fcn := .powE .X .Y
    der := [.mul .Y (.powE .X (.sub .Y (.lit 1))), .lit 0] }

/-- Minimum entry: `fcn = fmin(x, y)`, `der` is `d[0] = x<=y`,
`d[1] = !d[0]`. -/
def minAtomic : Atomic :=
  { fcn := .fminE .X .Y, der := [.leE .X .Y, .lnot (.leE .X .Y)] }

/-- Maximum entry: `fcn = fmax(x, y)`, `der` is `d[0] = x>=y`,
`d[1] = !d[0]`. -/
def maxAtomic : Atomic :=
  { fcn := .fmaxE .X .Y, der := [.geE .X .Y, .lnot (.geE .X .Y)] }

/-- Denotation of a unary entry's expressions (the operand `y` slot and,
for `fcn`, the result slot are unused by unary rules). -/
noncomputable def evalU (x : ℝ) (e : AExpr) : ℝ := evalA x 0 0 e

lemma minD0_eval (x y : ℝ) :
    evalA x y 0 (minAtomic.der.getD 0 (.lit 0)) = if x ≤ y then 1 else 0 := rfl

lemma minD1_eval (x y : ℝ) :
    evalA x y 0 (minAtomic.der.getD 1 (.lit 0)) = if x ≤ y then 0 else 1 := by
  by_cases h : x ≤ y <;> simp [evalA, minAtomic, h]

lemma maxD0_eval (x y : ℝ) :
    evalA x y 0 (maxAtomic.der.getD 0 (.lit 0)) = if y ≤ x then 1 else 0 := rfl

lemma maxD1_eval (x y : ℝ) :
    evalA x y 0 (maxAtomic.der.getD 1 (.lit 0)) = if y ≤ x then 0 else 1 := by
  by_cases h : y ≤ x <;> simp [evalA, maxAtomic, h]

/-- Claim C1: the source's own derivative-consistency property — every
atomic `der` rule must agree with a central-difference estimate of its
`fcn` rule at non-boundary points — fails for the hyperbolic-cosine
opcode.  The table writes `d[0] = -sinh(x)` (the rule copied from the
cosine entry), while the central-difference estimate of `cosh` at `x = 1`
with step `1/2` is positive; the two differ by more than `2`, far beyond
any reasonable tolerance. -/
theorem claim1_cosh_der_fails_central_difference :
    coshAtomic.der = [AExpr.neg (.sinhE .X)] ∧
    evalU 1 (coshAtomic.der.getD 0 (.lit 0)) = -Real.sinh 1 ∧
    (evalU (1 + 1/2) coshAtomic.fcn - evalU (1 - 1/2) coshAtomic.fcn) / (2 * (1/2))
      - evalU 1 (coshAtomic.der.getD 0 (.lit 0)) > 2 := by
  refine ⟨rfl, by simp [evalU, evalA, coshAtomic], ?_⟩
  have e1 : evalU (1 + 1/2) coshAtomic.fcn = Real.cosh (1 + 1/2) := by
    simp [evalU, evalA, coshAtomic]
  have e2 : evalU (1 - 1/2) coshAtomic.fcn = Real.cosh (1 - 1/2) := by
    simp [evalU, evalA, coshAtomic]
  have e3 : evalU 1 (coshAtomic.der.getD 0 (.lit 0)) = -Real.sinh 1 := by
    simp [evalU, evalA, coshAtomic]
  rw [e1, e2, e3, Real.cosh_add, Real.cosh_sub]
  have h1 : (1 : ℝ) < Real.sinh 1 := Real.self_lt_sinh_iff.mpr one_pos
  have h2 : (1/2 : ℝ) < Real.sinh (1/2) := Real.self_lt_sinh_iff.mpr (by norm_num)
  have h3 : (0 : ℝ) < Real.sinh 1 := lt_trans one_pos h1
  have h4 : (0 : ℝ) < Real.sinh (1/2) := lt_trans (by norm_num) h2
  have h5 : (2 : ℝ) * (1/2) = 1 := by norm_num
  rw [h5, div_one]
  nlinarith [h1, h2, h3, h4]

/-- Claim C3: the power entry's derivative row denotes
`d0 = y·x^(y-1)` and `d1 = log(x)·f`; the constant-exponent variant has
the same `d0` and `d1 = 0`.  Moreover `d0` is expressed directly, not as
`y·f/x` (in either association), and the two differ at the removable
singularity `x = 0`: the direct form gives `1` at `(x, y) = (0, 1)` where
`y·f/x` gives `0`. -/
theorem claim3_pow_derivative_entries :
    (∀ x y f : ℝ,
      evalA x y f (powAtomic.der.getD 0 (.lit 0)) = y * Real.rpow x (y - 1) ∧
      evalA x y f (powAtomic.der.getD 1 (.lit 0)) = Real.log x * f ∧
      evalA x y f (powConstAtomic.der.getD 0 (.lit 0)) = y * Real.rpow x (y - 1) ∧
      evalA x y f (powConstAtomic.der.getD 1 (.lit 0)) = 0) ∧
    powAtomic.der.getD 0 (.lit 0) ≠ .div (.mul .Y .F) .X ∧
    powAtomic.der.getD 0 (.lit 0) ≠ .mul .Y (.div .F .X) ∧
    evalA 0 1 (evalA 0 1 0 powAtomic.fcn) (powAtomic.der.getD 0 (.lit 0)) = 1 ∧
    evalA 0 1 (evalA 0 1 0 powAtomic.fcn) (.div (.mul .Y .F) .X) = 0 := by
  refine ⟨fun x y f => ⟨?_, ?_, ?_, ?_⟩, by decide, by decide, ?_, ?_⟩
  · simp [evalA, powAtomic]
  · simp [evalA, powAtomic]
  · simp [evalA, powConstAtomic]
  · simp [evalA, powConstAtomic]
  · simp [evalA, powAtomic, Real.rpow_natCast]
  · simp [evalA, powAtomic]

/-- Witness for claim C3 at a concrete input. -/
theorem claim3_pow_derivative_entries_witness :
    evalA 3 2 5 (powAtomic.der.getD 1 (.lit 0)) = Real.log 3 * 5 :=
  (claim3_pow_derivative_entries.1 3 2 5).2.1

/-- Claim C7: for `min` and `max`, for every pair of operands exactly one
of the two derivative entries evaluates to `1` and the other to `0`; a
derivative of `1` on an operand implies that operand attains the
extremum; and at a tie `x = y` the whole derivative routes to the first
operand. -/
theorem claim7_min_max_subgradient :
    ∀ x y : ℝ,
      (((evalA x y 0 (minAtomic.der.getD 0 (.lit 0)) = 1 ∧
         evalA x y 0 (minAtomic.der.getD 1 (.lit 0)) = 0) ∨
        (evalA x y 0 (minAtomic.der.getD 0 (.lit 0)) = 0 ∧
         evalA x y 0 (minAtomic.der.getD 1 (.lit 0)) = 1)) ∧
       (evalA x y 0 (minAtomic.der.getD 0 (.lit 0)) = 1 →
         evalA x y 0 minAtomic.fcn = x) ∧
       (evalA x y 0 (minAtomic.der.getD 1 (.lit 0)) = 1 →
         evalA x y 0 minAtomic.fcn = y) ∧
       (x = y → evalA x y 0 (minAtomic.der.getD 0 (.lit 0)) = 1 ∧
                evalA x y 0 (minAtomic.der.getD 1 (.lit 0)) = 0)) ∧
      (((evalA x y 0 (maxAtomic.der.getD 0 (.lit 0)) = 1 ∧
         evalA x y 0 (maxAtomic.der.getD 1 (.lit 0)) = 0) ∨
        (evalA x y 0 (maxAtomic.der.getD 0 (.lit 0)) = 0 ∧
         evalA x y 0 (maxAtomic.der.getD 1 (.lit 0)) = 1)) ∧
       (evalA x y 0 (maxAtomic.der.getD 0 (.lit 0)) = 1 →
         evalA x y 0 maxAtomic.fcn = x) ∧
       (evalA x y 0 (maxAtomic.der.getD 1 (.lit 0)) = 1 →
         evalA x y 0 maxAtomic.fcn = y) ∧
       (x = y → evalA x y 0 (maxAtomic.der.getD 0 (.lit 0)) = 1 ∧
                evalA x y 0 (maxAtomic.der.getD 1 (.lit 0)) = 0)) := by
  intro x y
  have fmin : evalA x y 0 minAtomic.fcn = min x y := rfl
  have fmax : evalA x y 0 maxAtomic.fcn = max x y := rfl
  constructor
  · rw [minD0_eval, minD1_eval, fmin]
    by_cases h : x ≤ y
    · exact ⟨Or.inl (by simp [h]), fun _ => by simp [min_eq_left h],
        fun hc => by simp [h] at hc, fun _ => by simp [h]⟩
    · refine ⟨Or.inr (by simp [h]), fun hc => by simp [h] at hc,
        fun _ => by simp [min_eq_right (le_of_not_le h)], fun he => absurd he.le h⟩
  · rw [maxD0_eval, maxD1_eval, fmax]
    by_cases h : y ≤ x
    · exact ⟨Or.inl (by simp [h]), fun _ => by simp [max_eq_left h],
        fun hc => by simp [h] at hc, fun _ => by simp [h]⟩
    · refine ⟨Or.inr (by simp [h]), fun hc => by simp [h] at hc,
        fun _ => by simp [max_eq_right (le_of_not_le h)], fun he => absurd he.ge h⟩

/-- Witness for claim C7: at the tie `x = y = 1` the derivative of `min`
routes entirely to the first operand. -/
theorem claim7_min_max_subgradient_witness :
    evalA 1 1 0 (minAtomic.der.getD 0 (.lit 0)) = 1 ∧
    evalA 1 1 0 (minAtomic.der.getD 1 (.lit 0)) = 0 :=
  (claim7_min_max_subgradient 1 1).1.2.2.2 rfl

/-! ## Expression node graph (`src/casadi/core/Nodes/sx_nodes.cc`)

Graph nodes are reference-counted heap objects; two nodes may be
value-equal yet be distinct objects.  Each node therefore carries an
allocation identifier, and "the very same node object" is equality of the
tree including identifiers (the program never allocates two distinct
objects with the same identifier). -/

inductive UOp where
  | negO : UOp
  | sqO : UOp
  | sinO : UOp
  | cosO : UOp
deriving DecidableEq

inductive BOp where
  | addO : BOp
  | subO : BOp
  | mulO : BOp
  | divO : BOp
deriving DecidableEq

inductive SX where
  | const : Nat → ℚ → SX
  | sym : Nat → SX
  | un : Nat → UOp → SX → SX
  | bin : Nat → BOp → SX → SX → SX
deriving DecidableEq

/-- Source `is_zero`: a constant node with value `0`. -/
def SX.is_zero : SX → Bool
  | .const _ v => v == 0
  | _ => false

/-- Source `is_constant`: a constant node. -/
def SX.is_constant : SX → Bool
  | .const _ _ => true
  | _ => false

/-- Source `static_cast<double>(e)`: the payload of a constant node. -/
def SX.cval : SX → ℚ
  | .const _ v => v
  | _ => 0

/-- Source `is_op(op)` for unary opcodes. -/
def SX.is_unop (o : UOp) : SX → Bool
  | .un _ o2 _ => o2 == o
  | _ => false

/-- Source `is_op(op)` for binary opcodes. -/
def SX.is_binop (o : BOp) : SX → Bool
  | .bin _ o2 _ _ => o2 == o
  | _ => false

/-- Source `dep()` / `dep(0)`: first operand reference (a leaf returns itself;
the source never queries dependencies of a leaf on the paths modelled
here). -/
def SX.dep0 : SX → SX
  | .un _ _ a => a
  | .bin _ _ a _ => a
  | e => e

/-- Source `dep(1)`: second operand reference. -/
def SX.dep1 : SX → SX
  | .un _ _ a => a
  | .bin _ _ _ b => b
  | e => e

/-- Modelled from the spec: `SXNode` structural equality
`is_equal(a, b, depth)`, whose implementation is not under `src/` (only
its call sites in `PlusNode::eval` are).  Per the spec, depth `0` means
same node identity, and increasing depth recursively compares operator
and operands up to that many levels; constants compare by value. -/
def is_equal : Nat → SX → SX → Bool
  | 0, a, b => a == b
  | d + 1, a, b =>
    a == b ||
    match a, b with
    | .const _ v, .const _ w => v == w
    | .un _ o a1, .un _ o2 b1 => o == o2 && is_equal d a1 b1
    | .bin _ o a1 a2, .bin _ o2 b1 b2 =>
        o == o2 && is_equal d a1 b1 && is_equal d a2 b2
    | _, _ => false

/-- Source `PlusNode::eval`: construction-time simplification of an addition
node.  `eqDepth` is the configured comparison depth `SXNode::eq_depth_`;
`fid` is the identifier a freshly allocated node would receive (branches
that return an existing node keep that node's identifier).  The final
`break` of the source falls through to ordinary node construction. -/
def plusNode (eqDepth fid : Nat) (x y : SX) : SX :=
  if x.is_zero then y
  else if y.is_zero then x
  else if y.is_unop .negO then .bin fid .subO x (.un (fid + 1) .negO y)
  else if x.is_unop .negO then .bin fid .subO y x.dep0
  else if x.is_binop .mulO && y.is_binop .mulO &&
          x.dep0.is_constant && (x.dep0.cval == (1 : ℚ)/2) &&
          y.dep0.is_constant && (y.dep0.cval == (1 : ℚ)/2) &&
          is_equal eqDepth y.dep1 x.dep1 then x.dep1
  else if x.is_binop .divO && y.is_binop .divO &&
          x.dep1.is_constant && (x.dep1.cval == 2) &&
          y.dep1.is_constant && (y.dep1.cval == 2) &&
          is_equal eqDepth y.dep0 x.dep0 then x.dep0
  else if x.is_binop .subO && is_equal eqDepth x.dep1 y then x.dep0
  else if y.is_binop .subO && is_equal eqDepth x y.dep1 then y.dep0
  else if x.is_unop .sqO && y.is_unop .sqO &&
          ((x.dep0.is_unop .sinO && y.dep0.is_unop .cosO) ||
           (x.dep0.is_unop .cosO && y.dep0.is_unop .sinO)) &&
          is_equal eqDepth x.dep0.dep0 y.dep0.dep0 then .const fid 1
  else .bin fid .addO x y

/-- Claim C2 counterexample: when the first operand is itself a zero
constant, `add(x, 0)` returns the zero second operand, not `x` itself —
two distinct zero-constant node objects refute the claimed reference
identity. -/
theorem claim2_add_zero_identity_counterexample :
    (SX.const 1 0).is_zero = true ∧
    plusNode 1 5 (SX.const 0 0) (SX.const 1 0) = SX.const 1 0 ∧
    plusNode 1 5 (SX.const 0 0) (SX.const 1 0) ≠ SX.const 0 0 := by
  decide

/-- Claim C2 as amended: `add(0, y)` returns the node `y` itself for every
`y`, and `add(x, 0)` returns the node `x` itself for every `x` that is
not an exact zero (a zero `x` takes the first simplification branch and
the zero second operand is returned instead). -/
theorem claim2_add_zero_identity :
    ∀ (eqDepth fid : Nat) (x y : SX),
      (x.is_zero = true → plusNode eqDepth fid x y = y) ∧
      (x.is_zero = false → y.is_zero = true → plusNode eqDepth fid x y = x) := by
  intro eqDepth fid x y
  constructor
  · intro h
    simp [plusNode, h]
  · intro h1 h2
    simp [plusNode, h1, h2]

/-- Witness for claim C2: a symbol plus a zero constant is the symbol
node itself. -/
theorem claim2_add_zero_identity_witness :
    plusNode 2 7 (SX.sym 3) (SX.const 1 0) = SX.sym 3 ∧
    plusNode 2 7 (SX.const 1 0) (SX.sym 3) = SX.sym 3 :=
  ⟨(claim2_add_zero_identity 2 7 (SX.sym 3) (SX.const 1 0)).2 rfl rfl,
   (claim2_add_zero_identity 2 7 (SX.const 1 0) (SX.sym 3)).1 rfl⟩

/-- Claim C6: constructing `sq(sin(u)) + sq(cos(v))` — in either operand
order — where the trig arguments are structurally equal at the configured
comparison depth, simplifies at construction time to the constant `1`
node. -/
theorem claim6_sin_sq_plus_cos_sq :
    ∀ (eqDepth fid i1 i2 j1 j2 : Nat) (u v : SX),
      is_equal eqDepth u v = true →
      plusNode eqDepth fid (SX.un i1 .sqO (SX.un i2 .sinO u))
          (SX.un j1 .sqO (SX.un j2 .cosO v)) = SX.const fid 1 ∧
      plusNode eqDepth fid (SX.un i1 .sqO (SX.un i2 .cosO u))
          (SX.un j1 .sqO (SX.un j2 .sinO v)) = SX.const fid 1 := by
  intro eqDepth fid i1 i2 j1 j2 u v h
  constructor
  · simp [plusNode, SX.is_zero, SX.is_unop, SX.is_binop, SX.dep0, h]
  · simp [plusNode, SX.is_zero, SX.is_unop, SX.is_binop, SX.dep0, h]

/-- Witness for claim C6 at a concrete symbol argument. -/
theorem claim6_sin_sq_plus_cos_sq_witness :
    plusNode 0 9 (SX.un 4 .sqO (SX.un 5 .sinO (SX.sym 3)))
      (SX.un 6 .sqO (SX.un 7 .cosO (SX.sym 3))) = SX.const 9 1 :=
  (claim6_sin_sq_plus_cos_sq 0 9 4 5 6 7 (SX.sym 3) (SX.sym 3) (by decide)).1

/-! ## Code generator (`src/casadi/core/function/code_generator.cpp`) -/

/-- Source `CodeGenerator::work(int n, int sz)`: name of a work slot.
`codegen_scalars` is the generator option of the same name. -/
def work (codegen_scalars : Bool) (n sz : Int) : String :=
  if n < 0 || sz == 0 then "0"
  else if sz == 1 && !codegen_scalars then "(&w" ++ toString n ++ ")"
  else "w" ++ toString n

/-- Claim C10: the work-slot namer is total and returns the literal `"0"`
whenever the slot index is negative or the size is zero; a width-1 slot
without the `codegen_scalars` option names the address of a scalar; every
other case names the bare array. -/
theorem claim10_work_slot_naming :
    ∀ (cs : Bool) (n sz : Int),
      ((n < 0 ∨ sz = 0) → work cs n sz = "0") ∧
      (0 ≤ n → sz = 1 → cs = false → work cs n sz = "(&w" ++ toString n ++ ")") ∧
      (0 ≤ n → sz ≠ 0 → (sz ≠ 1 ∨ cs = true) → work cs n sz = "w" ++ toString n) := by
  intro cs n sz
  refine ⟨?_, ?_, ?_⟩
  · intro h
    rcases h with h | h
    · simp [work, h]
    · simp [work, h]
  · intro h1 h2 h3
    simp [work, h2, h3, not_lt.mpr h1]
  · intro h1 h2 h3
    rcases h3 with h3 | h3
    · simp [work, h2, h3, not_lt.mpr h1]
    · rcases eq_or_ne sz 1 with h4 | h4
      · simp [work, h2, h3, h4, not_lt.mpr h1]
      · simp [work, h2, h4, not_lt.mpr h1]

/-- Witness for claim C10: a negative slot index names `"0"`, and a
width-1 slot without `codegen_scalars` names a scalar address. -/
theorem claim10_work_slot_naming_witness :
    work false (-1) 3 = "0" ∧ work false 2 1 = "(&w2)" :=
  ⟨(claim10_work_slot_naming false (-1) 3).1 (Or.inl (by decide)),
   (claim10_work_slot_naming false 2 1).2.1 (by decide) rfl rfl⟩

/-- Position of the last `'.'` in a character list
(`name.rfind('.')` of `CodeGenerator::generate`). -/
def lastDotPos : List Char → Option Nat
  | [] => none
  | c :: rest =>
    match lastDotPos rest with
    | some i => some (i + 1)
    | none => if c = '.' then some 0 else none

/-- Source `CodeGenerator::generate(name)`: the name of the primary generated
source file.  The name is divided at the last dot into base and suffix;
without a dot the suffix defaults to `.c`, or `.cpp` when the `cpp`
option is set; an explicit suffix in `name` is kept as-is. -/
def generatedFilename (cpp : Bool) (name : String) : String :=
  let cs := name.toList
  match lastDotPos cs with
  | none => String.mk cs ++ (if cpp then ".cpp" else ".c")
  | some i => String.mk (cs.take i) ++ String.mk (cs.drop i)

lemma lastDotPos_eq_none_of_not_mem :
    ∀ (cs : List Char), '.' ∉ cs → lastDotPos cs = none := by
  intro cs
  induction cs with
  | nil => intro _; rfl
  | cons c rest ih =>
    intro h
    have hc : c ≠ '.' := fun hc => h (hc ▸ List.mem_cons_self c rest)
    have hrest : '.' ∉ rest := fun hr => h (List.mem_cons_of_mem c hr)
    simp [lastDotPos, ih hrest, hc]

lemma not_mem_of_lastDotPos_eq_none :
    ∀ (cs : List Char), lastDotPos cs = none → '.' ∉ cs := by
  intro cs
  induction cs with
  | nil => intro _ h; cases h
  | cons c rest ih =>
    intro h hm
    rcases hr : lastDotPos rest with _ | i
    · have hc : ¬ c = '.' := by
        intro hc
        simp [lastDotPos, hr, hc] at h
      rcases List.mem_cons.mp hm with he | hmem
      · exact hc he.symm
      · exact ih hr hmem
    · simp [lastDotPos, hr] at h

/-- Claim C9 counterexample: an output name that already carries an
extension keeps it with either setting of the `cpp` option —
`generate("foo.txt")` produces `foo.txt`, whose suffix is neither `.c`
nor `.cpp`. -/
theorem claim9_primary_suffix_counterexample :
    generatedFilename false "foo.txt" = "foo.txt" ∧
    generatedFilename true "foo.txt" = "foo.txt" ∧
    (".c".toList.isSuffixOf (generatedFilename false "foo.txt").toList = false) ∧
    (".cpp".toList.isSuffixOf (generatedFilename true "foo.txt").toList = false) := by
  decide

/-- Claim C9 as amended: for every output name that carries no dot, the
primary generated file is named `<name>.c`, or `<name>.cpp` when the
`cpp` option is set; every name that contains a dot is kept whole —
basename and its own suffix unchanged — regardless of the `cpp`
option. -/
theorem claim9_primary_suffix :
    ∀ (cpp : Bool) (name : String),
      ('.' ∉ name.toList →
        generatedFilename cpp name = name ++ (if cpp then ".cpp" else ".c")) ∧
      ('.' ∈ name.toList → generatedFilename cpp name = name) := by
  intro cpp name
  constructor
  · intro h
    have h2 : lastDotPos name.data = none := lastDotPos_eq_none_of_not_mem _ h
    show (match lastDotPos name.data with
      | none => String.mk name.data ++ (if cpp then ".cpp" else ".c")
      | some i => String.mk (name.data.take i) ++ String.mk (name.data.drop i))
        = name ++ (if cpp then ".cpp" else ".c")
    rw [h2]
  · intro h
    rcases h2 : lastDotPos name.data with _ | i
    · exact absurd h (not_mem_of_lastDotPos_eq_none _ h2)
    · show (match lastDotPos name.data with
        | none => String.mk name.data ++ (if cpp then ".cpp" else ".c")
        | some i => String.mk (name.data.take i) ++ String.mk (name.data.drop i))
          = name
      rw [h2]
      show String.mk (name.data.take i ++ name.data.drop i) = name
      rw [List.take_append_drop]

/-- Witness for claim C9 at concrete names: a dot-free name receives the
option suffix, a name with an extension is kept whole even with the
`cpp` option set. -/
theorem claim9_primary_suffix_witness :
    generatedFilename true "f" = "f" ++ ".cpp" ∧
    generatedFilename true "g.txt" = "g.txt" :=
  ⟨(claim9_primary_suffix true "f").1 (by decide),
   (claim9_primary_suffix true "g.txt").2 (by decide)⟩

/-! ### Numeric-literal formatter (`CodeGenerator::constant(double)`)

A `double` value is modelled as NaN, a signed infinity, or a finite value
carried as a rational (every finite double is a rational; the concrete
counterexample below, `2^31`, is exactly representable).  The C `int` of
the source is 32 bits wide. -/

inductive DVal where
  | nan : DVal
  | inf : Bool → DVal
  | fin : ℚ → DVal

def INT_MIN : Int := -(2 ^ 31)

def INT_MAX : Int := 2 ^ 31 - 1

/-- Whether the fraction `n / d` is below `10^e` (decidable in pure
integer arithmetic). -/
def fracLtPow10 (n d : Nat) (e : Int) : Bool :=
  if 0 ≤ e then n < d * 10 ^ e.toNat else n * 10 ^ (-e).toNat < d

/-- Decimal exponent of the positive fraction `n / d`: the `e` with
`10^e ≤ n/d < 10^(e+1)`, computed from digit counts with one
adjustment. -/
def decExp (n d : Nat) : Int :=
  let e0 : Int := (Nat.toDigits 10 n).length - (Nat.toDigits 10 d).length
  if fracLtPow10 n d e0 then e0 - 1 else e0

/-- Rounding `round(n/d * 10^s)` in integer arithmetic (half rounds up):
`floor(N/D + 1/2) = (2N + D) / (2D)`. -/
def roundScaled (n d : Nat) (s : Int) : Nat :=
  let nd := if 0 ≤ s then (n * 10 ^ s.toNat, d) else (n, d * 10 ^ (-s).toNat)
  (2 * nd.1 + nd.2) / (2 * nd.2)

/-- Two-digit-minimum rendering of an exponent magnitude. -/
def padExp (ea : Nat) : String :=
  if ea < 10 then "0" ++ toString ea else toString ea

/-- The `std::scientific << std::setprecision(16)` rendering of a finite
value: sign, leading digit, point, 16 further significant digits
(`digits10 + 1 = 16` for a 64-bit double), and a signed two-digit
exponent.  Ties round half up (immaterial to every property stated
here). -/
def sciFmt (q : ℚ) : String :=
  if q.num = 0 then "0.0000000000000000e+00"
  else
    let n := q.num.natAbs
    let d := q.den
    let e := decExp n d
    let m0 := roundScaled n d (16 - e)
    let me := if m0 ≥ 10 ^ 17 then ((10 : Nat) ^ 16, e + 1) else (m0, e)
    match Nat.toDigits 10 me.1 with
    | [] => "0"
    | c :: rest =>
      (if q.num < 0 then "-" else "") ++ String.mk [c] ++ "." ++ String.mk rest ++
        "e" ++ (if me.2 < 0 then "-" else "+") ++ padExp me.2.natAbs

/-- Source `CodeGenerator::constant(double v)`.  The source tests
`int v_int(v); v_int == v`; since the conversion yields an in-range `int`
under any platform semantics, that test holds precisely when `v` is
integral and lies within the `int` range, which is how the branch
condition is rendered here. -/
def fmtConstant (v : DVal) : String :=
  match v with
  | .nan => "NAN"
  | .inf neg => (if neg then "-" else "") ++ "INFINITY"
  | .fin q =>
    if q.den = 1 ∧ INT_MIN ≤ q.num ∧ q.num ≤ INT_MAX then
      toString q.num ++ "."
    else sciFmt q

/-- Claim C5 counterexample: `2^31` is an integral-valued finite double,
yet it is rendered in scientific notation, not as `"2147483648."`,
because it does not fit in the source's `int`. -/
theorem claim5_literal_formatting_counterexample :
    (((2147483648 : Int) : ℚ)).den = 1 ∧
    fmtConstant (.fin ((2147483648 : Int) : ℚ)) = "2.1474836480000000e+09" ∧
    fmtConstant (.fin ((2147483648 : Int) : ℚ)) ≠ "2147483648." := by
  refine ⟨by decide, by decide, by decide⟩

/-- Claim C5 as amended: NaN renders as the not-a-number literal, the
infinities as the signed infinity literals, an integral-valued finite
double *within the `int` range* as the integer followed by a trailing
dot, and every other finite double — non-integral or integral beyond the
`int` range — in scientific notation at `digits10+1` significant
digits. -/
theorem claim5_literal_formatting :
    fmtConstant .nan = "NAN" ∧
    fmtConstant (.inf false) = "INFINITY" ∧
    fmtConstant (.inf true) = "-INFINITY" ∧
    (∀ n : Int, INT_MIN ≤ n → n ≤ INT_MAX →
      fmtConstant (.fin (n : ℚ)) = toString n ++ ".") ∧
    (∀ q : ℚ, q.den ≠ 1 → fmtConstant (.fin q) = sciFmt q) ∧
    (∀ q : ℚ, q.num < INT_MIN ∨ INT_MAX < q.num →
      fmtConstant (.fin q) = sciFmt q) := by
  refine ⟨rfl, rfl, rfl, ?_, ?_, ?_⟩
  · intro n h1 h2
    have hd : ((n : ℚ)).den = 1 := Rat.den_intCast n
    have hn : ((n : ℚ)).num = n := Rat.num_intCast n
    simp [fmtConstant, hd, hn, h1, h2]
  · intro q hq
    simp [fmtConstant, hq]
  · intro q hq
    rcases hq with hq | hq
    · simp [fmtConstant, not_le.mpr hq]
    · simp [fmtConstant, not_le.mpr hq]

/-- Witness for claim C5: the in-range integral double `5` renders as
`"5."`, and the non-integral double `1/2` renders scientifically. -/
theorem claim5_literal_formatting_witness :
    fmtConstant (.fin ((5 : Int) : ℚ)) = toString (5 : Int) ++ "." ∧
    fmtConstant (.fin (mkRat 1 2)) = sciFmt (mkRat 1 2) :=
  ⟨claim5_literal_formatting.2.2.2.1 5 (by decide) (by decide),
   claim5_literal_formatting.2.2.2.2.1 (mkRat 1 2) (by decide)⟩

/-! ### Constant pools (`CodeGenerator::getConstant`)

The integer-vector and double-vector pools run the identical code, so the
pool is modelled once, generically in the element type.  A pool holds the
constants added so far and the hash multimap `added_*_constants_` as a
list of `(hash value, slot index)` pairs in insertion order — exactly the
order in which `equal_range` yields entries with an equal key.  The
content hash itself (a word-level combine over the raw bytes) is kept
abstract as a function parameter, which is also what lets a hash
collision be stated. -/

structure CPool (α : Type) where
  constants : List (List α)
  hmap : List (Nat × Nat)
deriving DecidableEq

/-- Every multimap entry points at an existing slot; every pool reachable
through the generator's interface satisfies this. -/
def CPool.wf {α : Type} (p : CPool α) : Prop :=
  ∀ pr ∈ p.hmap, pr.2 < p.constants.length

/-- Source `CodeGenerator::getConstant(v, allow_adding)`: probe the entries
whose key equals `hash v` in order, returning the slot of the first
content-equal hit; on a miss either append a new slot or, in lookup-only
mode, fail with `casadi_error("Constant not found")`. -/
def getConstant {α : Type} [DecidableEq α] (hash : List α → Nat)
    (p : CPool α) (v : List α) (allow_adding : Bool) :
    Except String (Nat × CPool α) :=
  match (p.hmap.filter fun pr => decide (pr.1 = hash v)).find?
      (fun pr => decide (p.constants.getD pr.2 [] = v)) with
  | some pr => .ok (pr.2, p)
  | none =>
    if allow_adding then
      .ok (p.constants.length,
        ⟨p.constants ++ [v], p.hmap ++ [(hash v, p.constants.length)]⟩)
    else .error "Constant not found"

lemma getConstant_eq_find {α : Type} [DecidableEq α] (hash : List α → Nat)
    (p : CPool α) (v : List α) (allow_adding : Bool) :
    getConstant hash p v allow_adding =
      match (p.hmap.filter fun pr => decide (pr.1 = hash v)).find?
          (fun pr => decide (p.constants.getD pr.2 [] = v)) with
      | some pr => .ok (pr.2, p)
      | none =>
        if allow_adding then
          .ok (p.constants.length,
            ⟨p.constants ++ [v], p.hmap ++ [(hash v, p.constants.length)]⟩)
        else .error "Constant not found" := rfl

lemma getConstant_stable {α : Type} [DecidableEq α] (hash : List α → Nat)
    (p : CPool α) (v : List α) (i : Nat) (p2 : CPool α)
    (hwf : p.wf) (h : getConstant hash p v true = .ok (i, p2)) :
    getConstant hash p2 v true = .ok (i, p2) ∧ p2.wf ∧
    i < p2.constants.length ∧ p2.constants.getD i [] = v ∧
    (∀ j, j < p.constants.length →
      p2.constants.getD j [] = p.constants.getD j []) := by
  rcases hfind : (p.hmap.filter fun pr => decide (pr.1 = hash v)).find?
      (fun pr => decide (p.constants.getD pr.2 [] = v)) with _ | pr
  · -- miss: a new slot is appended
    have hres : getConstant hash p v true =
        .ok (p.constants.length,
          ⟨p.constants ++ [v], p.hmap ++ [(hash v, p.constants.length)]⟩) := by
      rw [getConstant_eq_find, hfind]
      rfl
    rw [hres] at h
    obtain ⟨hi, hp⟩ : i = p.constants.length ∧
        p2 = ⟨p.constants ++ [v], p.hmap ++ [(hash v, p.constants.length)]⟩ := by
      have h2 := h
      simp only [Except.ok.injEq, Prod.mk.injEq] at h2
      exact ⟨h2.1.symm, h2.2.symm⟩
    subst hi hp
    have hgetv : (p.constants ++ [v]).getD p.constants.length [] = v := by
      simp [List.getD_eq_getElem?_getD, List.getElem?_concat_length]
    have hkeep : ∀ j, j < p.constants.length →
        (p.constants ++ [v]).getD j [] = p.constants.getD j [] := by
      intro j hj
      simp [List.getD_eq_getElem?_getD, List.getElem?_append_left hj]
    have hwf2 : (CPool.mk (p.constants ++ [v])
        (p.hmap ++ [(hash v, p.constants.length)])).wf := by
      intro pr hpr
      rcases List.mem_append.mp hpr with hold | hnew
      · exact lt_trans (hwf pr hold) (by simp)
      · simp at hnew
        simp [hnew]
    refine ⟨?_, hwf2, by simp, hgetv, hkeep⟩
    -- the second request finds the slot just appended
    have hmiss : ∀ pr2 ∈ p.hmap.filter fun pr => decide (pr.1 = hash v),
        ¬ decide (p.constants.getD pr2.2 [] = v) = true :=
      List.find?_eq_none.mp hfind
    have hfilter : ((p.hmap ++ [(hash v, p.constants.length)]).filter
        fun pr => decide (pr.1 = hash v)) =
        (p.hmap.filter fun pr => decide (pr.1 = hash v)) ++
          [(hash v, p.constants.length)] := by
      simp
    have hfind2 : (((p.hmap ++ [(hash v, p.constants.length)]).filter
        fun pr => decide (pr.1 = hash v)).find?
        (fun pr => decide ((p.constants ++ [v]).getD pr.2 [] = v))) =
        some (hash v, p.constants.length) := by
      rw [hfilter, List.find?_append]
      have hnone : ((p.hmap.filter fun pr => decide (pr.1 = hash v)).find?
          (fun pr => decide ((p.constants ++ [v]).getD pr.2 [] = v))) = none := by
        apply List.find?_eq_none.mpr
        intro pr2 hpr2
        have hmem : pr2 ∈ p.hmap := (List.mem_filter.mp hpr2).1
        have hlt : pr2.2 < p.constants.length := hwf pr2 hmem
        have heq : (p.constants ++ [v]).getD pr2.2 [] = p.constants.getD pr2.2 [] := by
          simp [List.getD_eq_getElem?_getD, List.getElem?_append_left hlt]
        simp only [heq]
        exact hmiss pr2 hpr2
      rw [hnone, Option.none_or]
      simp [hgetv]
    rw [getConstant_eq_find, hfind2]
  · -- hit: the existing slot is returned and the pool is unchanged
    have hres : getConstant hash p v true = .ok (pr.2, p) := by
      rw [getConstant_eq_find, hfind]
    rw [hres] at h
    obtain ⟨hi, hp⟩ : pr.2 = i ∧ p = p2 := by
      have h2 := h
      simp only [Except.ok.injEq, Prod.mk.injEq] at h2
      exact ⟨h2.1, h2.2⟩
    subst hi
    subst hp
    have hmem : pr ∈ p.hmap :=
      (List.mem_filter.mp (List.mem_of_find?_eq_some hfind)).1
    have hlt : pr.2 < p.constants.length := hwf pr hmem
    have hgd0 := List.find?_some hfind
    have hgd : p.constants.getD pr.2 [] = v := of_decide_eq_true hgd0
    exact ⟨hres, hwf, hlt, hgd, fun j _ => rfl⟩

/-- Claim C4: from any well-formed pool state, requesting the same value
sequence twice returns the same slot index (and the pool is unchanged by
the repeat request); requesting two distinct sequences whose hashes
collide returns two distinct slot indices, and afterwards each sequence
is retrievable at its own index.  The statement is generic in the element
type and so covers both the integer-vector and the double-vector pool. -/
theorem claim4_constant_pool_round_trip {α : Type} [DecidableEq α]
    (hash : List α → Nat) (p : CPool α) (v w : List α) (hwf : p.wf) :
    (∀ i1 p1, getConstant hash p v true = .ok (i1, p1) →
      getConstant hash p1 v true = .ok (i1, p1)) ∧
    (v ≠ w → hash v = hash w →
      ∀ i1 p1 i2 p2,
        getConstant hash p v true = .ok (i1, p1) →
        getConstant hash p1 w true = .ok (i2, p2) →
        i1 ≠ i2 ∧ p2.constants.getD i1 [] = v ∧ p2.constants.getD i2 [] = w) := by
  constructor
  · intro i1 p1 h1
    exact (getConstant_stable hash p v i1 p1 hwf h1).1
  · intro hvw _ i1 p1 i2 p2 h1 h2
    obtain ⟨_, hwf1, hi1, hv1, _⟩ := getConstant_stable hash p v i1 p1 hwf h1
    obtain ⟨_, _, hi2, hw2, hkeep⟩ := getConstant_stable hash p1 w i2 p2 hwf1 h2
    have hv2 : p2.constants.getD i1 [] = v := (hkeep i1 hi1).trans hv1
    refine ⟨?_, hv2, hw2⟩
    intro he
    exact hvw (by rw [← hv2, he, hw2])

/-- Witness for claim C4: two colliding singleton sequences in an
initially empty integer pool receive slots 0 and 1 and both remain
retrievable. -/
theorem claim4_constant_pool_round_trip_witness :
    (0 : Nat) ≠ 1 ∧
    (CPool.mk [[1], [2]] [(0, 0), (0, 1)] : CPool Int).constants.getD 0 [] = [1] ∧
    (CPool.mk [[1], [2]] [(0, 0), (0, 1)] : CPool Int).constants.getD 1 [] = [2] :=
  (claim4_constant_pool_round_trip (fun _ => 0) (CPool.mk [] []) [1] [2]
      (fun pr hpr => absurd hpr (List.not_mem_nil pr))).2
    (by decide) rfl 0 (CPool.mk [[1]] [(0, 0)]) 1
    (CPool.mk [[1], [2]] [(0, 0), (0, 1)]) (by rw [getConstant_eq_find]; rfl)
    (by rw [getConstant_eq_find]; rfl)

/-- Claim C8: in lookup-only mode (`allow_adding = false`), a request
whose value has no content-equal entry under its hash aborts with the
internal error `"Constant not found"` instead of inserting or returning a
slot; when a content-equal entry exists, the request returns an existing
slot holding that content and leaves the pool unchanged. -/
theorem claim8_lookup_only_mode {α : Type} [DecidableEq α]
    (hash : List α → Nat) (p : CPool α) (v : List α) :
    ((∀ pr ∈ p.hmap, pr.1 = hash v → p.constants.getD pr.2 [] ≠ v) →
      getConstant hash p v false = .error "Constant not found") ∧
    (∀ pr0, pr0 ∈ p.hmap → pr0.1 = hash v → p.constants.getD pr0.2 [] = v →
      ∃ i, getConstant hash p v false = .ok (i, p) ∧
        p.constants.getD i [] = v) := by
  constructor
  · intro hmiss
    have hfind : ((p.hmap.filter fun pr => decide (pr.1 = hash v)).find?
        (fun pr => decide (p.constants.getD pr.2 [] = v))) = none := by
      apply List.find?_eq_none.mpr
      intro pr hpr
      have hm := List.mem_filter.mp hpr
      have hk : pr.1 = hash v := of_decide_eq_true hm.2
      simp only [decide_eq_true_eq]
      exact hmiss pr hm.1 hk
    rw [getConstant_eq_find, hfind]
    rfl
  · intro pr0 hmem hkey hval
    rcases hfind : ((p.hmap.filter fun pr => decide (pr.1 = hash v)).find?
        (fun pr => decide (p.constants.getD pr.2 [] = v))) with _ | pr1
    · exfalso
      have hall := List.find?_eq_none.mp hfind
      have hin : pr0 ∈ p.hmap.filter fun pr => decide (pr.1 = hash v) :=
        List.mem_filter.mpr ⟨hmem, decide_eq_true hkey⟩
      exact hall pr0 hin (decide_eq_true hval)
    · have hgd0 := List.find?_some hfind
      refine ⟨pr1.2, ?_, of_decide_eq_true hgd0⟩
      rw [getConstant_eq_find, hfind]

/-- Witness for claim C8: a content-equal hit in a one-entry pool
returns an existing slot holding the content. -/
theorem claim8_lookup_only_mode_witness :
    ∃ i, getConstant (fun _ => 0) (CPool.mk [[5]] [(0, 0)]) ([5] : List Int)
        false = .ok (i, CPool.mk [[5]] [(0, 0)]) ∧
      (CPool.mk [[5]] [(0, 0)] : CPool Int).constants.getD i [] = [5] :=
  (claim8_lookup_only_mode (fun _ => 0) (CPool.mk [[5]] [(0, 0)]) [5]).2
    (0, 0) (List.mem_singleton.mpr rfl) rfl rfl

end CasadiDiff
